import Mathlib

/-!
Shallow embedding of the mdb-edk2 symbol-resolution tool (`src/main.rs`).

The tool scans a firmware boot log for module load / load-failure events,
then, per loaded module, extracts the `.text` symbols from the module's
debug object, infers missing sizes, relocates addresses by the load base
and prints one debugger directive per symbol.

Strings from the program are modelled as `List Char`; Rust `u64` values
are modelled as `Nat` with explicit wrap-around (`% 2 ^ 64`) where the
source performs machine arithmetic.  `BTreeMap<u64, V>` is modelled as an
address-sorted association list (`insertSorted` / `eraseKey` /
`lookupKey`).
-/

/-- Wrapping 64-bit addition, modelling Rust `u64` addition. -/
def u64add (a b : Nat) : Nat := (a + b) % 2 ^ 64

/-- Wrapping 64-bit subtraction, modelling Rust `u64` subtraction
(release semantics) on operands below `2 ^ 64`. -/
def u64sub (a b : Nat) : Nat := (2 ^ 64 + a - b) % 2 ^ 64

/-- Insertion into an address-sorted association list; an equal key
replaces the stored value, modelling `BTreeMap::insert`. -/
def insertSorted {α : Type} (k : Nat) (v : α) : List (Nat × α) → List (Nat × α)
  | [] => [(k, v)]
  | (k', v') :: rest =>
    if k < k' then (k, v) :: (k', v') :: rest
    else if k = k' then (k, v) :: rest
    else (k', v') :: insertSorted k v rest

/-- Lookup by key, modelling `BTreeMap::get` on the association list. -/
def lookupKey {α : Type} (k : Nat) : List (Nat × α) → Option α
  | [] => none
  | (k', v) :: rest => if k = k' then some v else lookupKey k rest

/-- Removal of a key, modelling `BTreeMap::remove`. -/
def eraseKey {α : Type} (k : Nat) : List (Nat × α) → List (Nat × α)
  | [] => []
  | (k', v) :: rest => if k' = k then eraseKey k rest else (k', v) :: eraseKey k rest

/-- Lowercase hexadecimal digit for a value below 16, as produced by
Rust formatting. -/
def hexDigitChar (n : Nat) : Char :=
  if n < 10 then Char.ofNat (48 + n) else Char.ofNat (87 + n)

/-- Accumulator loop for hexadecimal rendering; the fuel argument only
bounds the recursion depth and `n + 1` is always sufficient since the
value shrinks by a factor of 16 each step. -/
def toHexAux : Nat → Nat → List Char → List Char
  | 0, _, acc => acc
  | fuel + 1, n, acc =>
    if n < 16 then hexDigitChar n :: acc
    else toHexAux fuel (n / 16) (hexDigitChar (n % 16) :: acc)

/-- Lowercase hexadecimal rendering of a natural number without a
leading prefix, modelling Rust formatting. -/
def toHexList (n : Nat) : List Char := toHexAux (n + 1) n []

/-- Per-symbol record held in the working map, from `struct SymRes` in
the source. -/
structure SymRes where
  name : List Char
  size : Nat
  is_func : Bool
  deriving DecidableEq, Repr

/-- One output line of `post_process`, from the `println!` format string
in the source: address, `f` or `o` flag, size, quoted qualified name. -/
def renderLine (addr : Nat) (is_func : Bool) (size : Nat) (base sname : List Char) : List Char :=
  toHexList addr ++ "::nmadd -".toList ++ (if is_func then "f".toList else "o".toList) ++
    " -s ".toList ++ toHexList size ++ " \"".toList ++ base ++ ".".toList ++ sname ++ "\"".toList

/-- Size inference and emission over the sorted working map, from
`post_process` in the source: a zero declared size is stretched to the
next entry, or to the section end for the last entry. -/
def post_process (results : List (Nat × SymRes)) (base : List Char) (addr_end : Nat) :
    List (List Char) :=
  match results with
  | [] => []
  | (addr, res) :: rest =>
    renderLine addr res.is_func
      (match res.size with
        | 0 =>
          match rest with
          | (naddr, _) :: _ => u64sub naddr addr
          | [] => u64sub addr_end addr
        | sz => sz) base res.name :: post_process rest base addr_end

/-- Section header fields of the ELF model that the source consults. -/
structure SectionHeader where
  sh_name : Nat
  sh_size : Nat
  deriving DecidableEq, Repr

/-- Symbol table entry fields of the ELF model that the source consults;
`st_info` packs binding (high nibble) and type (low nibble) as in ELF. -/
structure ElfSym where
  st_name : Nat
  st_value : Nat
  st_size : Nat
  st_shndx : Nat
  st_info : Nat
  deriving DecidableEq, Repr

/-- ELF symbol type tag for functions. -/
def STT_FUNC : Nat := 2

/-- ELF symbol binding tag for global symbols. -/
def STB_GLOBAL : Nat := 1

/-- Function test on a symbol, as the goblin library decodes `st_info`. -/
def ElfSym.is_function (s : ElfSym) : Bool := s.st_info % 16 == STT_FUNC

/-- Binding of a symbol, as the goblin library decodes `st_info`. -/
def ElfSym.st_bind (s : ElfSym) : Nat := s.st_info / 16

/-- Parsed ELF object model: section headers with their name string
table, and symbols with theirs.  A string table is a partial map from
name offset to resolved name (`none` covers both a missing offset and a
string-table decoding error, which the source treats alike). -/
structure Elf where
  section_headers : List SectionHeader
  shdr_strtab : Nat → Option (List Char)
  syms : List ElfSym
  strtab : Nat → Option (List Char)

/-- Search for the first section whose resolved name is `.text`,
together with its index, from `process_file` in the source. -/
def findText (elf : Elf) : Option (Nat × SectionHeader) :=
  elf.section_headers.enum.find? fun p => elf.shdr_strtab p.2.sh_name == some ".text".toList

/-- One iteration of the symbol loop of `process_file`: skip symbols
outside the `.text` section; keep functions and untyped globals whose
name resolves, inserting them at their relocated address. -/
def symStep (elf : Elf) (text_shndx addr_start : Nat) (m : List (Nat × SymRes)) (sym : ElfSym) :
    List (Nat × SymRes) :=
  if sym.st_shndx ≠ text_shndx then m
  else if sym.is_function then
    match elf.strtab sym.st_name with
    | some name => insertSorted (u64add addr_start sym.st_value) ⟨name, sym.st_size, true⟩ m
    | none => m
  else if sym.st_bind = STB_GLOBAL then
    match elf.strtab sym.st_name with
    | some name => insertSorted (u64add addr_start sym.st_value) ⟨name, sym.st_size, false⟩ m
    | none => m
  else m

/-- The working map built by the symbol loop of `process_file`. -/
def buildResults (elf : Elf) (text_shndx addr_start : Nat) : List (Nat × SymRes) :=
  elf.syms.foldl (symStep elf text_shndx addr_start) []

/-- Outcome of locating and reading one module's debug object on disk.
The filesystem itself is outside the embedding; each fatal step of
`process_file` before ELF inspection is one constructor. -/
inductive ObjFile where
  | metadataErr
  | notFile
  | openErr
  | parseErr
  | parsed (elf : Elf)

/-- Per-module processing, from `process_file` in the source: fail on a
bad object or a missing `.text` section, otherwise build and emit the
symbol map.  The returned lines model the `println!` output. -/
def process_file (base : List Char) (obj : ObjFile) (addr_start : Nat) :
    Except (List Char) (List (List Char)) :=
  match obj with
  | .metadataErr => .error "metadata error".toList
  | .notFile => .error "bad object file".toList
  | .openErr => .error "open failed".toList
  | .parseErr => .error "parse failed".toList
  | .parsed elf =>
    match findText elf with
    | none => .error "No .text section found".toList
    | some (ndx, hdr) =>
      .ok (post_process (buildResults elf ndx addr_start) base (u64add addr_start hdr.sh_size))

/-- Error-stream report for one failed module, from the `eprintln!` in
`main`. -/
def reportLine (base e : List Char) : List Char :=
  "Error processing ".toList ++ base ++ ": ".toList ++ e

/-- One step of the driver loop at the end of `main`: emitted lines of a
successful module append to standard output, a failed module appends one
report to the error stream. -/
def resolveStep (dir : List Char → ObjFile) (acc : List (List Char) × List (List Char))
    (ent : Nat × List Char) : List (List Char) × List (List Char) :=
  match process_file ent.2 (dir ent.2) ent.1 with
  | .ok lines => (acc.1 ++ lines, acc.2)
  | .error e => (acc.1, acc.2 ++ [reportLine ent.2 e])

/-- The driver loop at the end of `main`, iterating the scanner's final
mapping in ascending address order; `dir` gives the object-file outcome
for each module base name. -/
def resolve_all (dir : List Char → ObjFile) (m : List (Nat × List Char)) :
    List (List Char) × List (List Char) :=
  m.foldl (resolveStep dir) ([], [])

/-- Accumulator loop of whitespace tokenization: a whitespace character
closes the pending token (dropped when empty), any other character
extends it. -/
def splitWsAux : List Char → List Char → List (List Char)
  | [], acc => if acc.isEmpty then [] else [acc.reverse]
  | c :: cs, acc =>
    if c.isWhitespace then
      if acc.isEmpty then splitWsAux cs [] else acc.reverse :: splitWsAux cs []
    else splitWsAux cs (c :: acc)

/-- Whitespace tokenization of a line, modelling Rust
`split_whitespace` (empty tokens are skipped). -/
def splitWs (cs : List Char) : List (List Char) := splitWsAux cs []

/-- Value of one hexadecimal digit in either case, `none` for any other
character. -/
def hexDigitVal (c : Char) : Option Nat :=
  if 48 ≤ c.toNat ∧ c.toNat ≤ 57 then some (c.toNat - 48)
  else if 97 ≤ c.toNat ∧ c.toNat ≤ 102 then some (c.toNat - 87)
  else if 65 ≤ c.toNat ∧ c.toNat ≤ 70 then some (c.toNat - 55)
  else none

/-- Left-to-right accumulation of hexadecimal digits; any non-digit
aborts the parse. -/
def parseHexAux : List Char → Nat → Option Nat
  | [], acc => some acc
  | c :: cs, acc =>
    match hexDigitVal c with
    | some d => parseHexAux cs (acc * 16 + d)
    | none => none

/-- Digit-run parse of a nonempty hexadecimal string. -/
def parseHexDigits : List Char → Option Nat
  | [] => none
  | cs => parseHexAux cs 0

/-- Base-16 string-to-`u64` conversion, modelling
`u64::from_str_radix(s, 16)`: an optional sign, then at least one digit;
a value at or above `2 ^ 64` is an overflow error, and a minus sign is
accepted only for a zero value. -/
def from_str_radix16 (cs : List Char) : Option Nat :=
  match cs with
  | '+' :: rest => (parseHexDigits rest).bind fun v => if v < 2 ^ 64 then some v else none
  | '-' :: rest => (parseHexDigits rest).bind fun v => if v = 0 then some v else none
  | _ => (parseHexDigits cs).bind fun v => if v < 2 ^ 64 then some v else none

/-- Repeated removal of a leading `0x`, modelling
`trim_start_matches("0x")` in the source. -/
def trimStart0x : List Char → List Char
  | '0' :: 'x' :: rest => trimStart0x rest
  | cs => cs

/-- Repeated removal of a leading reversed `.efi`, the worker of
`trimEndEfi` on the reversed character list. -/
def trimEndEfiRev : List Char → List Char
  | 'i' :: 'f' :: 'e' :: '.' :: rest => trimEndEfiRev rest
  | cs => cs

/-- Repeated removal of a trailing `.efi`, modelling
`trim_end_matches(".efi")` in the source. -/
def trimEndEfi (cs : List Char) : List Char := (trimEndEfiRev cs.reverse).reverse

/-- Token required at index 0 of a load line. -/
def loadingTok : List Char := "Loading".toList

/-- Token required at index 2 of a load line. -/
def atTok : List Char := "at".toList

/-- Fixed leading text of a load-failure line. -/
def errPre : List Char := "Error: Image at ".toList

/-- Failure-line half of the scanner loop body: on a line starting with
the failure text whose fourth token parses as bare base-16, remove that
address from the mapping; otherwise leave the mapping unchanged. -/
def scanErrLine (m : List (Nat × List Char)) (line : List Char) (fields : List (List Char)) :
    List (Nat × List Char) :=
  if errPre.isPrefixOf line then
    match fields.get? 3 with
    | some t3 =>
      match from_str_radix16 t3 with
      | some a => eraseKey a m
      | none => m
    | none => m
  else m

/-- One iteration of the log-scanning loop in `main`: a line whose
tokens 0, 2, 3 and 5 exist with token 0 `Loading` and token 2 `at` is a
candidate load event (inserting on a `0x` address that parses and an
`.efi` filename, otherwise doing nothing); every other line is checked
as a failure line. -/
def scanLine (m : List (Nat × List Char)) (line : List Char) : List (Nat × List Char) :=
  let fields := splitWs line
  match fields.get? 0, fields.get? 2, fields.get? 3, fields.get? 5 with
  | some t0, some t2, some addr, some file =>
    if t0 = loadingTok ∧ t2 = atTok then
      if ("0x".toList).isPrefixOf addr ∧ (".efi".toList).isSuffixOf file then
        match from_str_radix16 (trimStart0x addr) with
        | some a => insertSorted a (trimEndEfi file) m
        | none => m
      else m
    else scanErrLine m line fields
  | _, _, _, _ => scanErrLine m line fields

/-- The whole log scan of `main`: fold the per-line step over the log's
lines starting from the empty mapping. -/
def scanLog (lines : List (List Char)) : List (Nat × List Char) :=
  lines.foldl scanLine []

/-- Load event denoted by a line, when there is one: the address and
suffix-stripped module name that `scanLine` would insert.  Follows the
load branch of the scanner exactly. -/
def loadEventOf (line : List Char) : Option (Nat × List Char) :=
  let fields := splitWs line
  match fields.get? 0, fields.get? 2, fields.get? 3, fields.get? 5 with
  | some t0, some t2, some addr, some file =>
    if t0 = loadingTok ∧ t2 = atTok then
      if ("0x".toList).isPrefixOf addr ∧ (".efi".toList).isSuffixOf file then
        match from_str_radix16 (trimStart0x addr) with
        | some a => some (a, trimEndEfi file)
        | none => none
      else none
    else none
  | _, _, _, _ => none

/-- Retraction event denoted by a line, when there is one: the address
that the failure branch of `scanLine` would remove. -/
def eraseEventOf (line : List Char) : Option Nat :=
  if errPre.isPrefixOf line then
    match (splitWs line).get? 3 with
    | some t3 => from_str_radix16 t3
    | none => none
  else none

/-- Strict ascending order of the keys of an association list. -/
def KeysAsc {α : Type} (m : List (Nat × α)) : Prop :=
  List.Pairwise (fun p q => p.1 < q.1) m

/-- Size the specification assigns to entry `i` of the working map: the
declared size when nonzero, otherwise the distance to the following
entry, or to the module end for the last entry. -/
def inferSizeAt (l : List (Nat × SymRes)) (addr_end i : Nat) : Nat :=
  match l.get? i with
  | none => 0
  | some (a, r) =>
    if r.size ≠ 0 then r.size
    else
      match l.get? (i + 1) with
      | some (a2, _) => a2 - a
      | none => addr_end - a

/-- Flat keep condition of the symbol loop: inside the `.text` section,
name resolvable, and function or global binding. -/
def keepSym (elf : Elf) (text_shndx : Nat) (s : ElfSym) : Bool :=
  s.st_shndx == text_shndx && (elf.strtab s.st_name).isSome &&
    (s.is_function || s.st_bind == STB_GLOBAL)

/-- Working-map record derived from a kept symbol. -/
def symResOf (elf : Elf) (s : ElfSym) : SymRes :=
  ⟨(elf.strtab s.st_name).getD [], s.st_size, s.is_function⟩

/-- Lowercase hexadecimal digit test for the output grammar. -/
def isLowerHexDigit (c : Char) : Bool :=
  (48 ≤ c.toNat && c.toNat ≤ 57) || (97 ≤ c.toNat && c.toNat ≤ 102)

/-- Output grammar of the specification:
`<hex-address>::nmadd -<f|o> -s <hex-size> "<module>.<symbol>"`, with
both numbers nonempty lowercase unprefixed hexadecimal. -/
def OutputGrammar (line : List Char) : Prop :=
  ∃ a s flag bm sn,
    a ≠ [] ∧ (∀ c ∈ a, isLowerHexDigit c) ∧
    s ≠ [] ∧ (∀ c ∈ s, isLowerHexDigit c) ∧
    (flag = "f".toList ∨ flag = "o".toList) ∧
    line = a ++ "::nmadd -".toList ++ flag ++ " -s ".toList ++ s ++
      " \"".toList ++ bm ++ ".".toList ++ sn ++ "\"".toList

/-- Concrete module of the specification's size-inference example:
`.text` spans `[0, 0x100)`, declared sizes `A:0x10, B:0, C:0` at
addresses `A:0x0, B:0x20, C:0x50`. -/
def elfSizeExample : Elf where
  section_headers := [⟨0, 0x100⟩]
  shdr_strtab := fun n => if n = 0 then some ".text".toList else none
  syms :=
    [⟨0, 0x0, 0x10, 0, 2⟩,
     ⟨1, 0x20, 0, 0, 2⟩,
     ⟨2, 0x50, 0, 0, 2⟩]
  strtab := fun n =>
    if n = 0 then some "A".toList
    else if n = 1 then some "B".toList
    else if n = 2 then some "C".toList
    else none

/-- Concrete module whose only symbol lies past the `.text` span: the
section is `0x10` bytes long but the kept symbol sits at value `0x20`. -/
def elfOutOfRange : Elf where
  section_headers := [⟨0, 0x10⟩]
  shdr_strtab := fun n => if n = 0 then some ".text".toList else none
  syms := [⟨0, 0x20, 0, 0, 2⟩]
  strtab := fun n => if n = 0 then some "X".toList else none

example : toHexList 0x1010 = ['1', '0', '1', '0'] := by decide
example : u64sub 0x50 0x20 = 0x30 := by decide
example : splitWs "Loading  X at 0x12".toList =
    ["Loading".toList, "X".toList, "at".toList, "0x12".toList] := by decide
example :
    loadEventOf "Loading DXE at 0x1000 EntryPoint=0x1010 DXE.efi".toList =
      some (0x1000, "DXE".toList) := by decide
example : eraseEventOf "Error: Image at 1000 start failed: oops".toList = some 0x1000 := by
  decide
example : eraseEventOf "Error: Image at 0x1000 start failed: oops".toList = none := by decide
example :
    scanLog ["Loading DXE at 0x1000 EntryPoint=0x1010 DXE.efi".toList,
      "Error: Image at 1000 start failed: oops".toList] = [] := by decide

theorem lookupKey_insertSorted_self {α : Type} (k : Nat) (v : α) (m : List (Nat × α)) :
    lookupKey k (insertSorted k v m) = some v := by
  induction m with
  | nil => simp [insertSorted, lookupKey]
  | cons p rest ih =>
    obtain ⟨k', v'⟩ := p
    by_cases h1 : k < k'
    · simp [insertSorted, h1, lookupKey]
    · by_cases h2 : k = k'
      · simp [insertSorted, h1, h2, lookupKey]
      · simp [insertSorted, h1, h2, lookupKey, ih]

theorem lookupKey_insertSorted_ne {α : Type} (a k : Nat) (v : α) (m : List (Nat × α))
    (hne : a ≠ k) : lookupKey a (insertSorted k v m) = lookupKey a m := by
  induction m with
  | nil => simp [insertSorted, lookupKey, hne]
  | cons p rest ih =>
    obtain ⟨k', v'⟩ := p
    by_cases h1 : k < k'
    · simp [insertSorted, h1, lookupKey, hne]
    · by_cases h2 : k = k'
      · subst h2
        simp [insertSorted, h1, lookupKey, hne]
      · simp [insertSorted, h1, h2, lookupKey, ih]

theorem lookupKey_eraseKey_self {α : Type} (k : Nat) (m : List (Nat × α)) :
    lookupKey k (eraseKey k m) = none := by
  induction m with
  | nil => simp [eraseKey, lookupKey]
  | cons p rest ih =>
    obtain ⟨k', v'⟩ := p
    by_cases h : k' = k
    · simp [eraseKey, h, ih]
    · have h2 : ¬k = k' := fun hh => h hh.symm
      simp [eraseKey, h, lookupKey, h2, ih]

theorem lookupKey_eraseKey_ne {α : Type} (a k : Nat) (m : List (Nat × α)) (hne : a ≠ k) :
    lookupKey a (eraseKey k m) = lookupKey a m := by
  induction m with
  | nil => simp [eraseKey]
  | cons p rest ih =>
    obtain ⟨k', v'⟩ := p
    by_cases h : k' = k
    · subst h
      simp [eraseKey, lookupKey, hne, ih]
    · simp [eraseKey, h, lookupKey, ih]

theorem eraseKey_of_lookupKey_none {α : Type} (k : Nat) (m : List (Nat × α))
    (h : lookupKey k m = none) : eraseKey k m = m := by
  induction m with
  | nil => simp [eraseKey]
  | cons p rest ih =>
    obtain ⟨k', v'⟩ := p
    by_cases hk : k = k'
    · subst hk
      simp [lookupKey] at h
    · rw [lookupKey] at h
      rw [if_neg hk] at h
      rw [eraseKey, if_neg (fun hh : k' = k => hk hh.symm), ih h]

theorem mem_insertSorted {α : Type} (k : Nat) (v : α) (m : List (Nat × α)) (p : Nat × α)
    (h : p ∈ insertSorted k v m) : p = (k, v) ∨ p ∈ m := by
  induction m with
  | nil => simpa [insertSorted] using h
  | cons q rest ih =>
    obtain ⟨k', v'⟩ := q
    by_cases h1 : k < k'
    · simp only [insertSorted, if_pos h1, List.mem_cons] at h
      simpa [List.mem_cons] using h
    · by_cases h2 : k = k'
      · simp only [insertSorted, if_neg h1, if_pos h2, List.mem_cons] at h
        rcases h with h | h
        · exact Or.inl h
        · exact Or.inr (List.mem_cons_of_mem _ h)
      · simp only [insertSorted, if_neg h1, if_neg h2, List.mem_cons] at h
        rcases h with h | h
        · exact Or.inr (by simp [h])
        · rcases ih h with h' | h'
          · exact Or.inl h'
          · exact Or.inr (List.mem_cons_of_mem _ h')

theorem keysAsc_insertSorted {α : Type} (k : Nat) (v : α) (m : List (Nat × α))
    (h : KeysAsc m) : KeysAsc (insertSorted k v m) := by
  induction m with
  | nil => simp [insertSorted, KeysAsc]
  | cons q rest ih =>
    obtain ⟨k', v'⟩ := q
    rw [KeysAsc, List.pairwise_cons] at h
    obtain ⟨hk', hrest⟩ := h
    by_cases h1 : k < k'
    · rw [KeysAsc]
      rw [insertSorted, if_pos h1, List.pairwise_cons]
      constructor
      · intro x hx
        rcases List.mem_cons.mp hx with hx | hx
        · subst hx
          exact h1
        · exact Nat.lt_trans h1 (hk' x hx)
      · exact List.Pairwise.cons hk' hrest
    · by_cases h2 : k = k'
      · rw [KeysAsc]
        rw [insertSorted, if_neg h1, if_pos h2, List.pairwise_cons]
        exact ⟨fun x hx => h2 ▸ hk' x hx, hrest⟩
      · rw [KeysAsc]
        rw [insertSorted, if_neg h1, if_neg h2, List.pairwise_cons]
        constructor
        · intro x hx
          rcases mem_insertSorted k v rest x hx with hx' | hx'
          · subst hx'
            omega
          · exact hk' x hx'
        · exact ih hrest

theorem getLast?_cons_getD {α : Type} (x : α) (l : List α) :
    (x :: l).getLast? = some (l.getLast?.getD x) := by
  induction l generalizing x with
  | nil => rfl
  | cons y ys ih =>
    rw [List.getLast?_cons_cons, ih y]
    rcases ys.getLast? with _ | z <;> rfl

theorem splitWs_errPre_append (rest : List Char) :
    splitWs (errPre ++ rest) =
      "Error:".toList :: "Image".toList :: "at".toList :: splitWs rest := rfl

theorem not_errPre_of_loading (line : List Char)
    (h0 : (splitWs line).get? 0 = some loadingTok) : ¬errPre.isPrefixOf line := by
  intro h
  obtain ⟨rest, hr⟩ := List.isPrefixOf_iff_prefix.mp h
  rw [← hr, splitWs_errPre_append] at h0
  simp only [List.get?_cons_zero, Option.some.injEq] at h0
  exact absurd h0 (by decide)

theorem scanErrLine_eq (m : List (Nat × List Char)) (line : List Char) :
    scanErrLine m line (splitWs line) =
      match eraseEventOf line with
      | some a => eraseKey a m
      | none => m := by
  unfold scanErrLine eraseEventOf
  by_cases h : errPre.isPrefixOf line
  · rw [if_pos h, if_pos h]
    cases h3 : (splitWs line).get? 3 with
    | none => rfl
    | some t3 =>
      cases hp : from_str_radix16 t3 <;> rfl
  · rw [if_neg h, if_neg h]

theorem scanLine_eq (m : List (Nat × List Char)) (line : List Char) :
    scanLine m line =
      match loadEventOf line with
      | some (a, nm) => insertSorted a nm m
      | none =>
        match eraseEventOf line with
        | some a => eraseKey a m
        | none => m := by
  unfold scanLine loadEventOf
  cases h0 : (splitWs line).get? 0 with
  | none => simp only [h0, scanErrLine_eq]
  | some t0 =>
    cases h2 : (splitWs line).get? 2 with
    | none => simp only [h0, h2, scanErrLine_eq]
    | some t2 =>
      cases h3 : (splitWs line).get? 3 with
      | none => simp only [h0, h2, h3, scanErrLine_eq]
      | some addr =>
        cases h5 : (splitWs line).get? 5 with
        | none => simp only [h0, h2, h3, h5, scanErrLine_eq]
        | some file =>
          simp only [h0, h2, h3, h5]
          by_cases hc : t0 = loadingTok ∧ t2 = atTok
          · rw [if_pos hc, if_pos hc]
            have hne : eraseEventOf line = none := by
              unfold eraseEventOf
              rw [if_neg (not_errPre_of_loading line (hc.1 ▸ h0))]
            by_cases hi : ("0x".toList).isPrefixOf addr ∧ (".efi".toList).isSuffixOf file
            · rw [if_pos hi, if_pos hi]
              cases hp : from_str_radix16 (trimStart0x addr) with
              | none => simp only [hne]
              | some a => rfl
            · rw [if_neg hi, if_neg hi]
              simp only [hne]
          · rw [if_neg hc, if_neg hc]
            exact scanErrLine_eq m line

theorem lookupKey_scanLine_untouched (m : List (Nat × List Char)) (line : List Char) (a : Nat)
    (he : eraseEventOf line ≠ some a) (hl : ∀ nm, loadEventOf line ≠ some (a, nm)) :
    lookupKey a (scanLine m line) = lookupKey a m := by
  rw [scanLine_eq]
  cases hLoad : loadEventOf line with
  | some p =>
    obtain ⟨a', nm⟩ := p
    have hne : a ≠ a' := by
      intro hh
      exact hl nm (by rw [hLoad, hh])
    simp only [lookupKey_insertSorted_ne a a' nm m hne]
  | none =>
    cases hErase : eraseEventOf line with
    | some a' =>
      have hne : a ≠ a' := by
        intro hh
        exact he (by rw [hErase, hh])
      simp only [lookupKey_eraseKey_ne a a' m hne]
    | none => rfl

theorem lookupKey_scanLine_isSome (m : List (Nat × List Char)) (line : List Char) (a : Nat)
    (he : eraseEventOf line ≠ some a) (hs : (lookupKey a m).isSome) :
    (lookupKey a (scanLine m line)).isSome := by
  rw [scanLine_eq]
  cases hLoad : loadEventOf line with
  | some p =>
    obtain ⟨a', nm⟩ := p
    by_cases hk : a = a'
    · subst hk
      simp only [lookupKey_insertSorted_self, Option.isSome_some]
    · simp only [lookupKey_insertSorted_ne a a' nm m hk]
      exact hs
  | none =>
    cases hErase : eraseEventOf line with
    | some a' =>
      have hne : a ≠ a' := by
        intro hh
        exact he (by rw [hErase, hh])
      simp only [lookupKey_eraseKey_ne a a' m hne]
      exact hs
    | none => exact hs

theorem lookupKey_scanLine_none (m : List (Nat × List Char)) (line : List Char) (a : Nat)
    (hl : ∀ nm, loadEventOf line ≠ some (a, nm)) (hn : lookupKey a m = none) :
    lookupKey a (scanLine m line) = none := by
  rw [scanLine_eq]
  cases hLoad : loadEventOf line with
  | some p =>
    obtain ⟨a', nm⟩ := p
    have hne : a ≠ a' := by
      intro hh
      exact hl nm (by rw [hLoad, hh])
    rw [lookupKey_insertSorted_ne a a' nm m hne]
    exact hn
  | none =>
    cases hErase : eraseEventOf line with
    | some a' =>
      by_cases hk : a = a'
      · subst hk
        exact lookupKey_eraseKey_self a m
      · rw [lookupKey_eraseKey_ne a a' m hk]
        exact hn
    | none => exact hn

theorem lookupKey_foldl_scanLine_untouched (ls : List (List Char)) (m : List (Nat × List Char))
    (a : Nat)
    (h : ∀ l ∈ ls, eraseEventOf l ≠ some a ∧ ∀ nm, loadEventOf l ≠ some (a, nm)) :
    lookupKey a (ls.foldl scanLine m) = lookupKey a m := by
  induction ls generalizing m with
  | nil => rfl
  | cons l rest ih =>
    rw [List.foldl_cons, ih (scanLine m l) fun x hx => h x (List.mem_cons_of_mem _ hx)]
    exact lookupKey_scanLine_untouched m l a (h l (List.mem_cons_self _ _)).1
      (h l (List.mem_cons_self _ _)).2

theorem lookupKey_foldl_scanLine_isSome (ls : List (List Char)) (m : List (Nat × List Char))
    (a : Nat) (h : ∀ l ∈ ls, eraseEventOf l ≠ some a) (hs : (lookupKey a m).isSome) :
    (lookupKey a (ls.foldl scanLine m)).isSome := by
  induction ls generalizing m with
  | nil => exact hs
  | cons l rest ih =>
    rw [List.foldl_cons]
    exact ih (scanLine m l) (fun x hx => h x (List.mem_cons_of_mem _ hx))
      (lookupKey_scanLine_isSome m l a (h l (List.mem_cons_self _ _)) hs)

theorem lookupKey_foldl_scanLine_none (ls : List (List Char)) (m : List (Nat × List Char))
    (a : Nat) (h : ∀ l ∈ ls, ∀ nm, loadEventOf l ≠ some (a, nm))
    (hn : lookupKey a m = none) : lookupKey a (ls.foldl scanLine m) = none := by
  induction ls generalizing m with
  | nil => exact hn
  | cons l rest ih =>
    rw [List.foldl_cons]
    exact ih (scanLine m l) (fun x hx => h x (List.mem_cons_of_mem _ hx))
      (lookupKey_scanLine_none m l a (h l (List.mem_cons_self _ _)) hn)

theorem loadEventOf_eq_none_of_erase (line : List Char) (a : Nat)
    (h : eraseEventOf line = some a) : loadEventOf line = none := by
  unfold eraseEventOf at h
  by_cases hp : errPre.isPrefixOf line
  · obtain ⟨rest, hr⟩ := List.isPrefixOf_iff_prefix.mp hp
    have h0 : (splitWs line).get? 0 = some "Error:".toList := by
      rw [← hr, splitWs_errPre_append]
      rfl
    unfold loadEventOf
    cases h2 : (splitWs line).get? 2 <;> cases h3 : (splitWs line).get? 3 <;>
      cases h5 : (splitWs line).get? 5 <;> simp only [h0, h2, h3, h5]
    rw [if_neg]
    intro hc
    exact absurd hc.1 (by decide)
  · rw [if_neg hp] at h
    cases h

/-- C2: a well-formed load line (token 0 `Loading`, token 2 `at`, token 3
a parsing `0x` hexadecimal address, token 5 an `.efi` filename) that no
later line retracts leaves its address present in the scanner's final
mapping; when no later load line reuses the address either, the address
is bound to the suffix-stripped filename, a later load at the same
address otherwise overwriting an earlier one. -/
theorem load_line_reaches_final_mapping (pre post : List (List Char)) (line : List Char)
    (a : Nat) (nm : List Char) (hload : loadEventOf line = some (a, nm)) :
    ((∀ l ∈ post, eraseEventOf l ≠ some a) →
      (lookupKey a (scanLog (pre ++ line :: post))).isSome) ∧
    ((∀ l ∈ post, eraseEventOf l ≠ some a ∧ ∀ nm2, loadEventOf l ≠ some (a, nm2)) →
      lookupKey a (scanLog (pre ++ line :: post)) = some nm) := by
  have hsplit : scanLog (pre ++ line :: post) =
      post.foldl scanLine (scanLine (scanLog pre) line) := by
    rw [scanLog, List.foldl_append, List.foldl_cons]
    rfl
  have hline : scanLine (scanLog pre) line = insertSorted a nm (scanLog pre) := by
    rw [scanLine_eq, hload]
  constructor
  · intro h
    rw [hsplit, hline]
    exact lookupKey_foldl_scanLine_isSome post _ a h
      (by rw [lookupKey_insertSorted_self]; rfl)
  · intro h
    rw [hsplit, hline, lookupKey_foldl_scanLine_untouched post _ a h,
      lookupKey_insertSorted_self]

theorem load_line_reaches_final_mapping_witness :
    lookupKey 0x1000 (scanLog (["boot noise".toList] ++
        "Loading DXE at 0x1000 EntryPoint=0x1010 DXE.efi".toList ::
        ["Error: Image at 2000 start failed: oops".toList])) = some "DXE".toList :=
  (load_line_reaches_final_mapping ["boot noise".toList]
      ["Error: Image at 2000 start failed: oops".toList]
      "Loading DXE at 0x1000 EntryPoint=0x1010 DXE.efi".toList 0x1000 "DXE".toList
      (by decide)).2
    (by
      intro l hl
      rcases List.mem_singleton.mp hl with rfl
      refine ⟨by decide, ?_⟩
      intro nm2 hcontra
      rw [show loadEventOf "Error: Image at 2000 start failed: oops".toList = none from by
        decide] at hcontra
      cases hcontra)

/-- C3: a load line that a later failure line with the same address
retracts leaves that address absent from the scanner's final mapping, no
matter what unrelated lines sit between the two events, provided no
still-later load line reuses the address. -/
theorem failure_line_retracts_load (pre mid post : List (List Char)) (ll fl : List Char)
    (a : Nat) (nm : List Char) (hload : loadEventOf ll = some (a, nm))
    (herase : eraseEventOf fl = some a)
    (hpost : ∀ l ∈ post, ∀ nm2, loadEventOf l ≠ some (a, nm2)) :
    lookupKey a (scanLog (pre ++ ll :: mid ++ fl :: post)) = none := by
  have hsplit : scanLog (pre ++ ll :: mid ++ fl :: post) =
      post.foldl scanLine (scanLine ((pre ++ ll :: mid).foldl scanLine []) fl) := by
    rw [scanLog, show pre ++ ll :: mid ++ fl :: post = (pre ++ ll :: mid) ++ fl :: post by
      simp, List.foldl_append, List.foldl_cons]
  rw [hsplit]
  apply lookupKey_foldl_scanLine_none post _ a hpost
  rw [scanLine_eq, loadEventOf_eq_none_of_erase fl a herase, herase]
  exact lookupKey_eraseKey_self a _

theorem failure_line_retracts_load_witness :
    lookupKey 0x1000 (scanLog (["boot noise".toList] ++
      "Loading DXE at 0x1000 EntryPoint=0x1010 DXE.efi".toList ::
      ["more noise".toList, "even more".toList] ++
      "Error: Image at 1000 start failed: oops".toList ::
      ["trailing noise".toList])) = none :=
  failure_line_retracts_load ["boot noise".toList]
    ["more noise".toList, "even more".toList] ["trailing noise".toList]
    "Loading DXE at 0x1000 EntryPoint=0x1010 DXE.efi".toList
    "Error: Image at 1000 start failed: oops".toList 0x1000 "DXE".toList (by decide)
    (by decide)
    (by
      intro l hl nm2 hcontra
      rcases List.mem_singleton.mp hl with rfl
      rw [show loadEventOf "trailing noise".toList = none from by decide] at hcontra
      cases hcontra)

/-- C9: a failure line whose address has no live entry is a no-op (the
scanner does not error and the mapping is returned unchanged), and a
failure line never disturbs entries at other addresses. -/
theorem failure_line_no_op (m : List (Nat × List Char)) (line : List Char) (a : Nat)
    (h : eraseEventOf line = some a) :
    (∀ b, b ≠ a → lookupKey b (scanLine m line) = lookupKey b m) ∧
    (lookupKey a m = none → scanLine m line = m) := by
  have heq : scanLine m line = eraseKey a m := by
    rw [scanLine_eq, loadEventOf_eq_none_of_erase line a h, h]
  constructor
  · intro b hb
    rw [heq]
    exact lookupKey_eraseKey_ne b a m hb
  · intro hn
    rw [heq]
    exact eraseKey_of_lookupKey_none a m hn

theorem failure_line_no_op_witness :
    scanLine [(0x2000, "Foo".toList)] "Error: Image at 1000 start failed".toList =
      [(0x2000, "Foo".toList)] :=
  (failure_line_no_op [(0x2000, "Foo".toList)] "Error: Image at 1000 start failed".toList
    0x1000 (by decide)).2 (by decide)

theorem u64sub_eq_sub (a b : Nat) (hba : b ≤ a) (ha : a < 2 ^ 64) : u64sub a b = a - b := by
  unfold u64sub
  have h1 : 2 ^ 64 + a - b = 2 ^ 64 + (a - b) := by omega
  rw [h1, Nat.add_mod_left]
  exact Nat.mod_eq_of_lt (by omega)

theorem u64add_eq_add (a b : Nat) (h : a + b < 2 ^ 64) : u64add a b = a + b :=
  Nat.mod_eq_of_lt h

theorem post_process_cons (a0 : Nat) (r0 : SymRes) (rest : List (Nat × SymRes))
    (base : List Char) (addr_end : Nat) :
    post_process ((a0, r0) :: rest) base addr_end =
      renderLine a0 r0.is_func
        (match r0.size with
          | 0 =>
            match rest with
            | (naddr, _) :: _ => u64sub naddr a0
            | [] => u64sub addr_end a0
          | sz => sz) base r0.name :: post_process rest base addr_end := rfl

theorem post_process_nonzero (a0 : Nat) (r0 : SymRes) (rest : List (Nat × SymRes))
    (base : List Char) (addr_end : Nat) (h : r0.size ≠ 0) :
    post_process ((a0, r0) :: rest) base addr_end =
      renderLine a0 r0.is_func r0.size base r0.name :: post_process rest base addr_end := by
  cases hsz : r0.size with
  | zero => exact absurd hsz h
  | succ k =>
    rw [post_process_cons, hsz]
    rfl

theorem post_process_zero_last (a0 : Nat) (r0 : SymRes) (base : List Char) (addr_end : Nat)
    (h : r0.size = 0) :
    post_process [(a0, r0)] base addr_end =
      [renderLine a0 r0.is_func (u64sub addr_end a0) base r0.name] := by
  rw [post_process_cons, h]
  rfl

theorem post_process_zero_next (a0 a1 : Nat) (r0 r1 : SymRes) (rest : List (Nat × SymRes))
    (base : List Char) (addr_end : Nat) (h : r0.size = 0) :
    post_process ((a0, r0) :: (a1, r1) :: rest) base addr_end =
      renderLine a0 r0.is_func (u64sub a1 a0) base r0.name ::
        post_process ((a1, r1) :: rest) base addr_end := by
  rw [post_process_cons, h]

theorem inferSizeAt_nonzero (a0 : Nat) (r0 : SymRes) (rest : List (Nat × SymRes))
    (addr_end : Nat) (h : r0.size ≠ 0) :
    inferSizeAt ((a0, r0) :: rest) addr_end 0 = r0.size := by
  simp only [inferSizeAt, List.get?_cons_zero]
  rw [if_pos h]

theorem inferSizeAt_zero_last (a0 : Nat) (r0 : SymRes) (addr_end : Nat) (h : r0.size = 0) :
    inferSizeAt [(a0, r0)] addr_end 0 = addr_end - a0 := by
  simp only [inferSizeAt, List.get?_cons_zero, h]
  rw [if_neg (by omega)]
  rfl

theorem inferSizeAt_zero_next (a0 a1 : Nat) (r0 r1 : SymRes) (rest : List (Nat × SymRes))
    (addr_end : Nat) (h : r0.size = 0) :
    inferSizeAt ((a0, r0) :: (a1, r1) :: rest) addr_end 0 = a1 - a0 := by
  simp only [inferSizeAt, List.get?_cons_zero, h]
  rw [if_neg (by omega)]
  rfl

theorem inferSizeAt_succ (a0 : Nat) (r0 : SymRes) (rest : List (Nat × SymRes))
    (addr_end j : Nat) :
    inferSizeAt ((a0, r0) :: rest) addr_end (j + 1) = inferSizeAt rest addr_end j := by
  simp only [inferSizeAt, List.get?_cons_succ]

theorem post_process_get?_eq (base : List Char) (addr_end : Nat) (hend : addr_end < 2 ^ 64) :
    ∀ (l : List (Nat × SymRes)), KeysAsc l → (∀ p ∈ l, p.1 ≤ addr_end) →
      ∀ i a r, l.get? i = some (a, r) →
        (post_process l base addr_end).get? i =
          some (renderLine a r.is_func (inferSizeAt l addr_end i) base r.name) := by
  intro l
  induction l with
  | nil =>
    intro _ _ i a r h
    cases h
  | cons p rest ih =>
    obtain ⟨a0, r0⟩ := p
    intro hsort hle i a r h
    rw [KeysAsc, List.pairwise_cons] at hsort
    obtain ⟨hhead, htail⟩ := hsort
    cases i with
    | zero =>
      rw [List.get?_cons_zero] at h
      injection h with h
      injection h with h1 h2
      subst h1
      subst h2
      by_cases hsz : r0.size = 0
      · cases rest with
        | nil =>
          rw [post_process_zero_last a0 r0 base addr_end hsz, List.get?_cons_zero,
            inferSizeAt_zero_last a0 r0 addr_end hsz,
            u64sub_eq_sub addr_end a0 (hle (a0, r0) (List.mem_cons_self _ _)) hend]
        | cons q rest' =>
          obtain ⟨a1, r1⟩ := q
          have ha1 : a0 < a1 := hhead (a1, r1) (List.mem_cons_self _ _)
          have ha1e : a1 ≤ addr_end :=
            hle (a1, r1) (List.mem_cons_of_mem _ (List.mem_cons_self _ _))
          rw [post_process_zero_next a0 a1 r0 r1 rest' base addr_end hsz,
            List.get?_cons_zero, inferSizeAt_zero_next a0 a1 r0 r1 rest' addr_end hsz,
            u64sub_eq_sub a1 a0 (Nat.le_of_lt ha1) (by omega)]
      · rw [post_process_nonzero a0 r0 rest base addr_end hsz, List.get?_cons_zero,
          inferSizeAt_nonzero a0 r0 rest addr_end hsz]
    | succ j =>
      rw [List.get?_cons_succ] at h
      cases hrest : rest with
      | nil =>
        rw [hrest] at h
        cases h
      | cons q rest' =>
        rw [← hrest]
        have hcons : (post_process ((a0, r0) :: rest) base addr_end).get? (j + 1) =
            (post_process rest base addr_end).get? j := by
          by_cases hsz : r0.size = 0
          · rw [hrest, post_process_zero_next a0 q.1 r0 q.2 rest' base addr_end hsz,
              List.get?_cons_succ]
          · rw [post_process_nonzero a0 r0 rest base addr_end hsz, List.get?_cons_succ]
        rw [hcons, ih htail (fun p2 hp2 => hle p2 (List.mem_cons_of_mem _ hp2)) j a r h,
          inferSizeAt_succ]

/-- C1: size inference walks the per-module working map in ascending
address order; a nonzero declared size is kept, a zero declared size
becomes the distance to the next entry, or to the module end
(`load_address + .text size`) for the last entry.  On the
specification's example module (`.text` over `[0, 0x100)`, sizes
`A:0x10, B:0, C:0` at `0x0, 0x20, 0x50`) the inferred sizes are
`A:0x10`, `B:0x30`, `C:0xb0`. -/
theorem size_inference_ascending :
    (∀ (l : List (Nat × SymRes)) (base : List Char) (addr_end : Nat),
      KeysAsc l → (∀ p ∈ l, p.1 ≤ addr_end) → addr_end < 2 ^ 64 →
      ∀ i a r, l.get? i = some (a, r) →
        (post_process l base addr_end).get? i =
          some (renderLine a r.is_func (inferSizeAt l addr_end i) base r.name)) ∧
    process_file "Mod".toList (.parsed elfSizeExample) 0 =
      .ok [renderLine 0x0 true 0x10 "Mod".toList "A".toList,
        renderLine 0x20 true 0x30 "Mod".toList "B".toList,
        renderLine 0x50 true 0xb0 "Mod".toList "C".toList] := by
  constructor
  · intro l base addr_end hsort hle hend
    exact post_process_get?_eq base addr_end hend l hsort hle
  · rfl

theorem size_inference_ascending_witness :
    (post_process [(0x20, ⟨"B".toList, 0, true⟩)] "Mod".toList 0x100).get? 0 =
      some (renderLine 0x20 true
        (inferSizeAt [(0x20, ⟨"B".toList, 0, true⟩)] 0x100 0) "Mod".toList "B".toList) :=
  size_inference_ascending.1 [(0x20, ⟨"B".toList, 0, true⟩)] "Mod".toList 0x100
    (by rw [KeysAsc]; exact List.pairwise_singleton _ _) (by decide) (by decide)
    0 0x20 ⟨"B".toList, 0, true⟩ rfl

theorem resolve_foldl_acc (dir : List Char → ObjFile) (m : List (Nat × List Char))
    (acc : List (List Char) × List (List Char)) :
    m.foldl (resolveStep dir) acc =
      (acc.1 ++ (resolve_all dir m).1, acc.2 ++ (resolve_all dir m).2) := by
  induction m generalizing acc with
  | nil => simp [resolve_all]
  | cons ent rest ih =>
    rw [List.foldl_cons, ih (resolveStep dir acc ent)]
    have hcons : resolve_all dir (ent :: rest) =
        ((resolveStep dir ([], []) ent).1 ++ (resolve_all dir rest).1,
          (resolveStep dir ([], []) ent).2 ++ (resolve_all dir rest).2) := by
      rw [resolve_all, List.foldl_cons, ih (resolveStep dir ([], []) ent)]
    rw [hcons]
    cases hp : process_file ent.2 (dir ent.2) ent.1 with
    | ok lines => simp [resolveStep, hp]
    | error e => simp [resolveStep, hp]

theorem resolve_all_append (dir : List Char → ObjFile) (l1 l2 : List (Nat × List Char)) :
    resolve_all dir (l1 ++ l2) =
      ((resolve_all dir l1).1 ++ (resolve_all dir l2).1,
        (resolve_all dir l1).2 ++ (resolve_all dir l2).2) := by
  rw [resolve_all, List.foldl_append]
  rw [show List.foldl (resolveStep dir) ([], []) l1 = resolve_all dir l1 from rfl]
  exact resolve_foldl_acc dir l2 (resolve_all dir l1)

theorem resolve_all_error_singleton (dir : List Char → ObjFile) (addr : Nat)
    (base e : List Char) (herr : process_file base (dir base) addr = .error e) :
    resolve_all dir [(addr, base)] = ([], [reportLine base e]) := by
  simp [resolve_all, resolveStep, herr]

/-- C7: a per-module fatal condition (bad object file or missing `.text`
section) abandons exactly that module: the driver's standard output is
the same as if the module were absent from the mapping, and its error
stream gains one report naming the module, with every other module still
processed in order. -/
theorem module_failure_isolated (dir : List Char → ObjFile) (pre post : List (Nat × List Char))
    (addr : Nat) (base e : List Char)
    (herr : process_file base (dir base) addr = .error e) :
    (resolve_all dir (pre ++ (addr, base) :: post)).1 = (resolve_all dir (pre ++ post)).1 ∧
    (resolve_all dir (pre ++ (addr, base) :: post)).2 =
      (resolve_all dir pre).2 ++ reportLine base e :: (resolve_all dir post).2 := by
  have hmid : resolve_all dir [(addr, base)] = ([], [reportLine base e]) :=
    resolve_all_error_singleton dir addr base e herr
  have hshape : pre ++ (addr, base) :: post = pre ++ [(addr, base)] ++ post := by simp
  rw [hshape, resolve_all_append dir (pre ++ [(addr, base)]) post,
    resolve_all_append dir pre [(addr, base)], hmid,
    resolve_all_append dir pre post]
  simp

theorem module_failure_isolated_witness :
    (resolve_all
        (fun nm => if nm = "BAD".toList then ObjFile.metadataErr
          else ObjFile.parsed elfSizeExample)
        [(0x500, "BAD".toList), (0, "Mod".toList)]).1 =
      (resolve_all
        (fun nm => if nm = "BAD".toList then ObjFile.metadataErr
          else ObjFile.parsed elfSizeExample)
        [(0, "Mod".toList)]).1 :=
  (module_failure_isolated
    (fun nm => if nm = "BAD".toList then ObjFile.metadataErr
      else ObjFile.parsed elfSizeExample)
    [] [(0, "Mod".toList)] 0x500 "BAD".toList "metadata error".toList (by rfl)).1

theorem keepSym_iff (elf : Elf) (ndx : Nat) (s : ElfSym) :
    keepSym elf ndx s = true ↔
      (s.st_shndx = ndx ∧ (elf.strtab s.st_name).isSome ∧
        (s.is_function = true ∨ s.st_bind = STB_GLOBAL)) := by
  unfold keepSym
  simp [Bool.and_eq_true, Bool.or_eq_true, and_assoc]

theorem symStep_eq (elf : Elf) (ndx a_s : Nat) (m : List (Nat × SymRes)) (s : ElfSym) :
    symStep elf ndx a_s m s =
      if keepSym elf ndx s then
        insertSorted (u64add a_s s.st_value) (symResOf elf s) m
      else m := by
  by_cases h1 : s.st_shndx = ndx <;> by_cases h2 : s.is_function = true <;>
    cases hst : elf.strtab s.st_name <;> by_cases h3 : s.st_bind = STB_GLOBAL <;>
    simp [symStep, keepSym, symResOf, h1, h2, h3, hst]

theorem mem_foldl_symStep (elf : Elf) (ndx a_s : Nat) (syms : List ElfSym)
    (m : List (Nat × SymRes)) (p : Nat × SymRes)
    (h : p ∈ syms.foldl (symStep elf ndx a_s) m) :
    (∃ s, s ∈ syms ∧ keepSym elf ndx s = true ∧
      p = (u64add a_s s.st_value, symResOf elf s)) ∨ p ∈ m := by
  induction syms generalizing m with
  | nil => exact Or.inr h
  | cons s rest ih =>
    rw [List.foldl_cons] at h
    rcases ih (symStep elf ndx a_s m s) h with h' | h'
    · obtain ⟨t, ht, hk, hp⟩ := h'
      exact Or.inl ⟨t, List.mem_cons_of_mem _ ht, hk, hp⟩
    · rw [symStep_eq] at h'
      by_cases hk : keepSym elf ndx s = true
      · rw [if_pos hk] at h'
        rcases mem_insertSorted _ _ _ _ h' with h2 | h2
        · exact Or.inl ⟨s, List.mem_cons_self _ _, hk, h2⟩
        · exact Or.inr h2
      · rw [if_neg hk] at h'
        exact Or.inr h'

theorem lookupKey_symStep_isSome (elf : Elf) (ndx a_s : Nat) (m : List (Nat × SymRes))
    (s : ElfSym) (a : Nat) (hs : (lookupKey a m).isSome) :
    (lookupKey a (symStep elf ndx a_s m s)).isSome := by
  rw [symStep_eq]
  by_cases hk : keepSym elf ndx s = true
  · rw [if_pos hk]
    by_cases ha : a = u64add a_s s.st_value
    · subst ha
      rw [lookupKey_insertSorted_self]
      rfl
    · rw [lookupKey_insertSorted_ne a _ _ m ha]
      exact hs
  · rw [if_neg hk]
    exact hs

theorem lookupKey_foldl_symStep_isSome (elf : Elf) (ndx a_s : Nat) (syms : List ElfSym)
    (m : List (Nat × SymRes)) (a : Nat) (hs : (lookupKey a m).isSome) :
    (lookupKey a (syms.foldl (symStep elf ndx a_s) m)).isSome := by
  induction syms generalizing m with
  | nil => exact hs
  | cons s rest ih =>
    rw [List.foldl_cons]
    exact ih (symStep elf ndx a_s m s) (lookupKey_symStep_isSome elf ndx a_s m s a hs)

theorem kept_sym_key_present (elf : Elf) (ndx a_s : Nat) (syms : List ElfSym)
    (m : List (Nat × SymRes)) (s : ElfSym) (hs : s ∈ syms) (hk : keepSym elf ndx s = true) :
    (lookupKey (u64add a_s s.st_value) (syms.foldl (symStep elf ndx a_s) m)).isSome := by
  induction syms generalizing m with
  | nil => cases hs
  | cons t rest ih =>
    rw [List.foldl_cons]
    rcases List.mem_cons.mp hs with rfl | hs'
    · apply lookupKey_foldl_symStep_isSome
      rw [symStep_eq, if_pos hk, lookupKey_insertSorted_self]
      rfl
    · exact ih (symStep elf ndx a_s m t) hs'

theorem keysAsc_foldl_symStep (elf : Elf) (ndx a_s : Nat) (syms : List ElfSym)
    (m : List (Nat × SymRes)) (h : KeysAsc m) :
    KeysAsc (syms.foldl (symStep elf ndx a_s) m) := by
  induction syms generalizing m with
  | nil => exact h
  | cons s rest ih =>
    rw [List.foldl_cons]
    apply ih
    rw [symStep_eq]
    by_cases hk : keepSym elf ndx s = true
    · rw [if_pos hk]
      exact keysAsc_insertSorted _ _ _ h
    · rw [if_neg hk]
      exact h

theorem keysAsc_buildResults (elf : Elf) (ndx a_s : Nat) :
    KeysAsc (buildResults elf ndx a_s) :=
  keysAsc_foldl_symStep elf ndx a_s elf.syms []
    (by rw [KeysAsc]; exact List.Pairwise.nil)

theorem post_process_mem (results : List (Nat × SymRes)) (base : List Char) (addr_end : Nat)
    (line : List Char) (h : line ∈ post_process results base addr_end) :
    ∃ addr r sz, (addr, r) ∈ results ∧ line = renderLine addr r.is_func sz base r.name := by
  induction results with
  | nil =>
    rw [show post_process [] base addr_end = [] from rfl] at h
    cases h
  | cons p rest ih =>
    obtain ⟨a0, r0⟩ := p
    rw [post_process_cons] at h
    rcases List.mem_cons.mp h with h | h
    · exact ⟨a0, r0, _, List.mem_cons_self _ _, h⟩
    · obtain ⟨addr, r, sz, hm, hl⟩ := ih h
      exact ⟨addr, r, sz, List.mem_cons_of_mem _ hm, hl⟩

/-- C4: the symbol loop keeps a symbol exactly when it sits in the
`.text` section, its name resolves through the string table, and it is a
function or has global binding; symbols outside `.text` are never kept;
every working-map entry originates from such a kept symbol, a kept
symbol's relocated address is always present, and every emitted line is
rendered from an entry with the `f` flag for functions and the `o` flag
otherwise (`renderLine` with the entry's `is_func`). -/
theorem symbol_filter_and_flags :
    (∀ (elf : Elf) (ndx a_s : Nat) (m : List (Nat × SymRes)) (s : ElfSym),
      (¬(s.st_shndx = ndx ∧ (elf.strtab s.st_name).isSome ∧
          (s.is_function = true ∨ s.st_bind = STB_GLOBAL)) →
        symStep elf ndx a_s m s = m) ∧
      (s.st_shndx = ndx → (elf.strtab s.st_name).isSome →
        (s.is_function = true ∨ s.st_bind = STB_GLOBAL) →
        symStep elf ndx a_s m s =
          insertSorted (u64add a_s s.st_value) (symResOf elf s) m)) ∧
    (∀ (elf : Elf) (ndx a_s : Nat) (p : Nat × SymRes), p ∈ buildResults elf ndx a_s →
      ∃ s, s ∈ elf.syms ∧ s.st_shndx = ndx ∧ (elf.strtab s.st_name).isSome ∧
        (s.is_function = true ∨ s.st_bind = STB_GLOBAL) ∧
        p = (u64add a_s s.st_value, symResOf elf s)) ∧
    (∀ (elf : Elf) (ndx a_s : Nat) (s : ElfSym), s ∈ elf.syms → s.st_shndx = ndx →
      (elf.strtab s.st_name).isSome → (s.is_function = true ∨ s.st_bind = STB_GLOBAL) →
      (lookupKey (u64add a_s s.st_value) (buildResults elf ndx a_s)).isSome) ∧
    (∀ (results : List (Nat × SymRes)) (base : List Char) (addr_end : Nat)
        (line : List Char), line ∈ post_process results base addr_end →
      ∃ addr r sz, (addr, r) ∈ results ∧
        line = renderLine addr r.is_func sz base r.name) := by
  refine ⟨fun elf ndx a_s m s => ⟨?_, ?_⟩, ?_, ?_, ?_⟩
  · intro hnot
    rw [symStep_eq, if_neg]
    intro hk
    exact hnot ((keepSym_iff elf ndx s).mp hk)
  · intro h1 h2 h3
    rw [symStep_eq, if_pos ((keepSym_iff elf ndx s).mpr ⟨h1, h2, h3⟩)]
  · intro elf ndx a_s p hp
    rcases mem_foldl_symStep elf ndx a_s elf.syms [] p hp with h | h
    · obtain ⟨s, hs, hk, hps⟩ := h
      obtain ⟨k1, k2, k3⟩ := (keepSym_iff elf ndx s).mp hk
      exact ⟨s, hs, k1, k2, k3, hps⟩
    · cases h
  · intro elf ndx a_s s hs h1 h2 h3
    exact kept_sym_key_present elf ndx a_s elf.syms [] s hs
      ((keepSym_iff elf ndx s).mpr ⟨h1, h2, h3⟩)
  · intro results base addr_end line h
    exact post_process_mem results base addr_end line h

theorem symbol_filter_and_flags_witness :
    symStep elfSizeExample 5 0 [] ⟨0, 0, 0, 9, 2⟩ = [] :=
  (symbol_filter_and_flags.1 elfSizeExample 5 0 [] ⟨0, 0, 0, 9, 2⟩).1 (by decide)

theorem lookupKey_foldl_symStep_eq (elf : Elf) (ndx a_s : Nat) (syms : List ElfSym)
    (m : List (Nat × SymRes)) (a : Nat) :
    lookupKey a (syms.foldl (symStep elf ndx a_s) m) =
      ((syms.filter fun s => keepSym elf ndx s && (u64add a_s s.st_value == a)).getLast?).elim
        (lookupKey a m) (fun s => some (symResOf elf s)) := by
  induction syms generalizing m with
  | nil => rfl
  | cons s rest ih =>
    rw [List.foldl_cons, ih (symStep elf ndx a_s m s)]
    by_cases hk : (keepSym elf ndx s && (u64add a_s s.st_value == a)) = true
    · rw [@List.filter_cons_of_pos ElfSym
        (fun s => keepSym elf ndx s && (u64add a_s s.st_value == a)) s rest hk,
        getLast?_cons_getD]
      cases hl : (rest.filter fun s =>
          keepSym elf ndx s && (u64add a_s s.st_value == a)).getLast? with
      | some t => simp [hl]
      | none =>
        simp only [hl, Option.elim, Option.getD]
        obtain ⟨hk1, hk2⟩ := (Bool.and_eq_true _ _).mp hk
        have ha : u64add a_s s.st_value = a := beq_iff_eq.mp hk2
        rw [symStep_eq, if_pos hk1, ha, lookupKey_insertSorted_self]
    · rw [@List.filter_cons_of_neg ElfSym
        (fun s => keepSym elf ndx s && (u64add a_s s.st_value == a)) s rest hk]
      cases hl : (rest.filter fun s =>
          keepSym elf ndx s && (u64add a_s s.st_value == a)).getLast? with
      | some t => simp [hl]
      | none =>
        simp only [hl, Option.elim]
        rw [symStep_eq]
        by_cases hk1 : keepSym elf ndx s = true
        · rw [if_pos hk1]
          have hne : a ≠ u64add a_s s.st_value := by
            intro hh
            apply hk
            rw [hk1, Bool.true_and]
            exact beq_iff_eq.mpr hh.symm
          rw [lookupKey_insertSorted_ne a _ _ m hne]
        · rw [if_neg hk1]

/-- C6: when two kept symbols of one module relocate to the same
absolute address, the working map holds exactly one entry for that
address (its keys are pairwise distinct), and a lookup returns the
record of the last such symbol in the object's iteration order. -/
theorem address_collision_last_writer_wins :
    (∀ (elf : Elf) (ndx a_s a : Nat),
      lookupKey a (buildResults elf ndx a_s) =
        ((elf.syms.filter fun s =>
            keepSym elf ndx s && (u64add a_s s.st_value == a)).getLast?).map
          (symResOf elf)) ∧
    (∀ (elf : Elf) (ndx a_s a : Nat),
      ((buildResults elf ndx a_s).map Prod.fst).count a ≤ 1) := by
  constructor
  · intro elf ndx a_s a
    rw [buildResults, lookupKey_foldl_symStep_eq elf ndx a_s elf.syms [] a]
    cases (elf.syms.filter fun s =>
        keepSym elf ndx s && (u64add a_s s.st_value == a)).getLast? with
    | some t => rfl
    | none => rfl
  · intro elf ndx a_s a
    have hnd : ((buildResults elf ndx a_s).map Prod.fst).Nodup := by
      have h := keysAsc_buildResults elf ndx a_s
      rw [KeysAsc] at h
      exact List.pairwise_map.mpr (h.imp fun hlt => Nat.ne_of_lt hlt)
    exact List.nodup_iff_count_le_one.mp hnd a

theorem hexDigitChar_lower (n : Nat) (h : n < 16) : isLowerHexDigit (hexDigitChar n) = true := by
  have hall : ∀ m, m < 16 → isLowerHexDigit (hexDigitChar m) = true := by decide
  exact hall n h

theorem toHexAux_lower (fuel : Nat) :
    ∀ (n : Nat) (acc : List Char), (∀ c ∈ acc, isLowerHexDigit c = true) →
      ∀ c ∈ toHexAux fuel n acc, isLowerHexDigit c = true := by
  induction fuel with
  | zero =>
    intro n acc hacc c hc
    exact hacc c hc
  | succ f ih =>
    intro n acc hacc c hc
    simp only [toHexAux] at hc
    by_cases hn : n < 16
    · rw [if_pos hn] at hc
      rcases List.mem_cons.mp hc with rfl | hc'
      · exact hexDigitChar_lower n hn
      · exact hacc c hc'
    · rw [if_neg hn] at hc
      refine ih (n / 16) (hexDigitChar (n % 16) :: acc) ?_ c hc
      intro d hd
      rcases List.mem_cons.mp hd with rfl | hd'
      · exact hexDigitChar_lower (n % 16) (Nat.mod_lt n (by omega))
      · exact hacc d hd'

theorem toHexList_lower (n : Nat) : ∀ c ∈ toHexList n, isLowerHexDigit c = true :=
  toHexAux_lower (n + 1) n [] (by intro c hc; cases hc)

theorem toHexAux_length_le (fuel : Nat) :
    ∀ (n : Nat) (acc : List Char), acc.length ≤ (toHexAux fuel n acc).length := by
  induction fuel with
  | zero =>
    intro n acc
    exact Nat.le_refl _
  | succ f ih =>
    intro n acc
    simp only [toHexAux]
    by_cases hn : n < 16
    · rw [if_pos hn]
      exact Nat.le_succ _
    · rw [if_neg hn]
      calc acc.length ≤ (hexDigitChar (n % 16) :: acc).length := Nat.le_succ _
        _ ≤ _ := ih (n / 16) (hexDigitChar (n % 16) :: acc)

theorem toHexList_ne_nil (n : Nat) : toHexList n ≠ [] := by
  intro h
  have hlen : (1 : Nat) ≤ (toHexList n).length := by
    rw [toHexList]
    simp only [toHexAux]
    by_cases hn : n < 16
    · rw [if_pos hn]
      simp
    · rw [if_neg hn]
      have := toHexAux_length_le n (n / 16) (hexDigitChar (n % 16) :: [])
      simpa using this
  rw [h] at hlen
  cases hlen

theorem renderLine_grammar (addr : Nat) (f : Bool) (sz : Nat) (base sname : List Char) :
    OutputGrammar (renderLine addr f sz base sname) := by
  refine ⟨toHexList addr, toHexList sz, if f then "f".toList else "o".toList, base, sname,
    toHexList_ne_nil addr, toHexList_lower addr, toHexList_ne_nil sz, toHexList_lower sz,
    ?_, ?_⟩
  · cases f
    · exact Or.inr rfl
    · exact Or.inl rfl
  · rw [renderLine]

/-- C8: every emitted line has the exact shape
`<hex-address>::nmadd -<f|o> -s <hex-size> "<module>.<symbol>"` with
nonempty lowercase unprefixed hexadecimal numbers, and the flag is the
entry's function flag (`f` for functions, `o` otherwise). -/
theorem output_lines_match_grammar (results : List (Nat × SymRes)) (base : List Char)
    (addr_end : Nat) (line : List Char) (h : line ∈ post_process results base addr_end) :
    OutputGrammar line ∧
      ∃ addr r sz, (addr, r) ∈ results ∧ line = renderLine addr r.is_func sz base r.name := by
  obtain ⟨addr, r, sz, hm, hl⟩ := post_process_mem results base addr_end line h
  constructor
  · rw [hl]
    exact renderLine_grammar addr r.is_func sz base r.name
  · exact ⟨addr, r, sz, hm, hl⟩

theorem output_lines_match_grammar_witness :
    OutputGrammar (renderLine 0x10 true 4 "M".toList "A".toList) :=
  (output_lines_match_grammar [(0x10, ⟨"A".toList, 4, true⟩)] "M".toList 0x100
    (renderLine 0x10 true 4 "M".toList "A".toList) (by decide)).1

/-- C5 counterexample: `process_file` succeeds on a module whose only
kept symbol has value `0x20` in a `.text` section of size `0x10`, and
the resulting working-map entry sits at address `0x1020`, outside
`[0x1000, 0x1010)` — the invariant fails as stated because symbol values
are never checked against the section size. -/
theorem resolved_address_range_counterexample :
    (∃ out, process_file "M".toList (.parsed elfOutOfRange) 0x1000 = .ok out) ∧
    ¬(∀ p ∈ buildResults elfOutOfRange 0 0x1000,
        0x1000 ≤ p.1 ∧ p.1 < 0x1000 + 0x10) := by
  constructor
  · exact ⟨_, rfl⟩
  · intro h
    have hmem : ((0x1020 : Nat), (⟨"X".toList, 0, true⟩ : SymRes)) ∈
        buildResults elfOutOfRange 0 0x1000 := by decide
    exact absurd (h _ hmem).2 (by decide)

/-- C5 amended: provided every kept symbol's value lies below the
`.text` section size and `load_base + section_size` does not overflow
`u64`, every working-map entry address lies within
`[load_base, load_base + section_size)`. -/
theorem resolved_address_range_amended (elf : Elf) (ndx : Nat) (hdr : SectionHeader)
    (a_s : Nat) (hfind : findText elf = some (ndx, hdr))
    (hof : a_s + hdr.sh_size < 2 ^ 64)
    (hval : ∀ s ∈ elf.syms, s.st_shndx = ndx → s.st_value < hdr.sh_size) :
    ∀ p ∈ buildResults elf ndx a_s, a_s ≤ p.1 ∧ p.1 < a_s + hdr.sh_size := by
  intro p hp
  rcases mem_foldl_symStep elf ndx a_s elf.syms [] p hp with h | h
  · obtain ⟨s, hs, hk, hps⟩ := h
    obtain ⟨k1, _, _⟩ := (keepSym_iff elf ndx s).mp hk
    have hv : s.st_value < hdr.sh_size := hval s hs k1
    have hadd : u64add a_s s.st_value = a_s + s.st_value :=
      u64add_eq_add a_s s.st_value (by omega)
    rw [hps]
    simp only [hadd]
    omega
  · cases h

theorem resolved_address_range_amended_witness :
    (0x1000 : Nat) ≤ 0x1020 ∧ (0x1020 : Nat) < 0x1000 + 0x100 :=
  resolved_address_range_amended elfSizeExample 0 ⟨0, 0x100⟩ 0x1000 rfl (by decide)
    (by decide) (0x1020, ⟨"B".toList, 0, true⟩) (by decide)

/-- C10: the working map that `post_process` receives is always sorted
with strictly ascending keys, so the stretch subtraction for a non-last
entry never underflows (the next address is at least the current one);
the last entry's subtraction `module_end - address` is safe only if every
address is at most `module_end`, and `process_file` does not enforce
that: on a concrete module a kept symbol's relocated address `0x1020`
exceeds `module_end = u64add 0x1000 0x10`. -/
theorem stretch_subtraction_safety :
    (∀ (elf : Elf) (ndx a_s : Nat), KeysAsc (buildResults elf ndx a_s)) ∧
    (∀ (l : List (Nat × SymRes)), KeysAsc l →
      ∀ (i a : Nat) (r : SymRes) (a2 : Nat) (r2 : SymRes),
        l.get? i = some (a, r) → l.get? (i + 1) = some (a2, r2) → a ≤ a2) ∧
    (findText elfOutOfRange = some (0, ⟨0, 0x10⟩) ∧
      ((0x1020 : Nat), (⟨"X".toList, 0, true⟩ : SymRes)) ∈
        buildResults elfOutOfRange 0 0x1000 ∧
      u64add 0x1000 0x10 < 0x1020) := by
  refine ⟨keysAsc_buildResults, ?_, by decide, by decide, by decide⟩
  intro l hsort i a r a2 r2 h1 h2
  rw [KeysAsc] at hsort
  obtain ⟨hi1, hg1⟩ := List.get?_eq_some.mp h1
  obtain ⟨hi2, hg2⟩ := List.get?_eq_some.mp h2
  have hlt := List.pairwise_iff_get.mp hsort ⟨i, hi1⟩ ⟨i + 1, hi2⟩ (by
    exact Nat.lt_succ_self i)
  rw [hg1, hg2] at hlt
  exact Nat.le_of_lt hlt

theorem stretch_subtraction_safety_witness : (1 : Nat) ≤ 5 :=
  stretch_subtraction_safety.2.1 [(1, ⟨"A".toList, 0, true⟩), (5, ⟨"B".toList, 0, true⟩)]
    (by rw [KeysAsc]; decide) 0 1 ⟨"A".toList, 0, true⟩ 5 ⟨"B".toList, 0, true⟩ rfl rfl
